import Mathlib

/-
Verification of the OpenHands-Colab collaboration relay (mcp_server.py).

The server is a line-oriented JSON-RPC dispatcher over a SQLite table
`messages (id INTEGER PRIMARY KEY AUTOINCREMENT, sender TEXT, message TEXT,
timestamp DATETIME DEFAULT CURRENT_TIMESTAMP, read_by TEXT DEFAULT '')`.
We embed it shallowly:

* strings are `List Char` (`Str`), so that Python's substring test
  (`x in y`), SQLite's `LIKE`, `str.strip(',')` and `",".join`/`split`
  can be modelled character by character;
* the database is an insertion-ordered list of rows; `AUTOINCREMENT`
  is a `nextId` counter starting at 1;
* `CURRENT_TIMESTAMP` is a monotone clock: each `send` advances the
  wall clock by an arbitrary `δ : Nat` (second-granularity timestamps,
  so distinct inserts may share a timestamp when `δ = 0`);
* `ORDER BY timestamp ASC` is modelled as a stable insertion sort on
  the scan (rowid) order, matching SQLite's table-scan-plus-sort plan;
* a stdin line is either text that fails JSON decoding
  (`json.JSONDecodeError` branch of `main`), valid JSON that is not an
  object (so `request.get` raises `AttributeError`, caught by the
  generic `except Exception` branch), or a decoded request object.
-/

namespace MCP

abbrev Str := List Char

/-- ASCII lower-casing of a single character, as SQLite's `LIKE` applies to
both operands when comparing ordinary pattern characters. -/
def lowerC (c : Char) : Char :=
  if 'A' ≤ c ∧ c ≤ 'Z' then Char.ofNat (c.toNat + 32) else c

/-- All suffixes of a string, from the string itself down to `[]`. -/
def suffixes : Str → List Str
  | [] => [[]]
  | c :: s => (c :: s) :: suffixes s

/-- SQLite `LIKE` pattern matching: `'%'` matches any (possibly empty)
sequence — i.e. the rest of the pattern must match some suffix of the
text — `'_'` matches any single character, and any other pattern
character matches ASCII-case-insensitively.  `like p s` is
`s LIKE p`. -/
def like : Str → Str → Bool
  | [], s => s == []
  | p :: ps, s =>
    if p = '%' then (suffixes s).any (like ps)
    else
      match s with
      | [] => false
      | c :: s' => if p = '_' then like ps s' else (lowerC p == lowerC c) && like ps s'

/-- `startsWith n h`: the haystack `h` starts with the needle `n`
(character-exact, as Python string comparison is). -/
def startsWith : Str → Str → Bool
  | [], _ => true
  | _ :: _, [] => false
  | a :: ns, b :: hs => (a == b) && startsWith ns hs

/-- Python's substring operator: `containsSub n h` is `n in h`
(contiguous, case-sensitive containment; the empty needle is contained
in every string). -/
def containsSub (n : Str) : Str → Bool
  | [] => startsWith n []
  | c :: s' => startsWith n (c :: s') || containsSub n s'

def isComma (c : Char) : Bool := c == ','

/-- Python's `str.strip(',')`: drop commas from both ends. -/
def stripCommas (l : Str) : Str :=
  ((l.dropWhile isComma).reverse.dropWhile isComma).reverse

/-- Auxiliary for `splitComma`: prepend a character to the first chunk. -/
def consHead (c : Char) : List Str → List Str
  | [] => [[c]]
  | t :: ts => (c :: t) :: ts

/-- Python's `str.split(',')`: the comma-separated chunks of a string
(the read-by marker's "comma-joined set" reading; `splitComma "" = [""]`
exactly as in Python). -/
def splitComma : Str → List Str
  | [] => [[]]
  | c :: cs => if isComma c then [] :: splitComma cs else consHead c (splitComma cs)

/-- Python's `"\n".join`. -/
def joinNL : List Str → Str
  | [] => []
  | [x] => x
  | x :: xs => x ++ '\n' :: joinNL xs

/-- One row of the `messages` table. -/
structure Message where
  id : Nat
  sender : Str
  message : Str
  timestamp : Nat
  read_by : Str
deriving DecidableEq, Repr

/-- The database plus the autoincrement counter and the wall clock. -/
structure ServerState where
  messages : List Message
  nextId : Nat
  clock : Nat
deriving DecidableEq, Repr

/-- Freshly initialized database: empty table, `AUTOINCREMENT` starts at 1. -/
def initialState : ServerState := ⟨[], 1, 0⟩

/-- The `arguments` object of a `tools/call` request; only the keys
`agent_id` and `message` are ever read, each possibly absent. -/
structure ToolArgs where
  agent_id : Option Str
  message : Option Str
deriving DecidableEq, Repr

/-- A decoded request object.  `request.get("id")` is `id` (absent key ⇒
`none`), `request.get("method", "")` means an absent method reads as `""`,
and `params.get("name", "")` / `params.get("arguments", {})` are flattened
into `name` / `args` with the same defaults the code applies. -/
structure Request where
  id : Option Int
  method : Str
  name : Str
  args : ToolArgs
deriving DecidableEq, Repr

structure RError where
  code : Int
  message : Str
deriving DecidableEq, Repr

/-- The `result` payloads the server can produce: the fixed `initialize`
metadata, the fixed tool descriptor list, or a tool call's text content. -/
inductive RResult where
  | initR
  | toolsR
  | textR (t : Str)
deriving DecidableEq, Repr

/-- A response envelope; the `jsonrpc` field is the envelope version
field (the spec calls it `protocol`). -/
structure Response where
  jsonrpc : Str
  id : Option Int
  result : Option RResult
  error : Option RError
deriving DecidableEq, Repr

/-- `arguments.get("agent_id", "unknown")`. -/
def unknownStr : Str := "unknown".data

/-- The `LIKE` pattern `f"%{agent_id}%"` used by the unread query. -/
def pat (agent : Str) : Str := '%' :: agent ++ ['%']

/-- The WHERE clause of the unread query:
`sender != ? AND (read_by NOT LIKE '%agent%' OR read_by = '')`. -/
def selCond (agent : Str) (m : Message) : Bool :=
  (m.sender != agent) && (!(like (pat agent) m.read_by) || (m.read_by == []))

/-- Stable insertion of a row into a timestamp-sorted list (a row is
placed before all strictly-later rows and after earlier-scanned rows of
equal timestamp). -/
def insertTS (m : Message) : List Message → List Message
  | [] => [m]
  | x :: xs => if m.timestamp ≤ x.timestamp then m :: x :: xs else x :: insertTS m xs

/-- `ORDER BY timestamp ASC` as a stable sort of the scan order. -/
def sortTS : List Message → List Message
  | [] => []
  | m :: l => insertTS m (sortTS l)

/-- The SELECT of `get_messages`: filter by `selCond`, order by timestamp. -/
def selectUnread (agent : Str) (ms : List Message) : List Message :=
  sortTS (ms.filter (selCond agent))

/-- `UPDATE messages SET read_by = ? WHERE id = ?`. -/
def updateById (ms : List Message) (i : Nat) (rb : Str) : List Message :=
  ms.map fun m => if m.id == i then { m with read_by := rb } else m

/-- The mark-as-read loop of `get_messages`: for each fetched row, if
`agent_id not in current_read_by` (Python substring test), set the row's
read-by marker to `f"{current_read_by},{agent_id}".strip(',')`. -/
def markLoop (agent : Str) : List Message → List Message → List Message
  | ms, [] => ms
  | ms, r :: rs =>
      let ms' := if containsSub agent r.read_by then ms
                 else updateById ms r.id (stripCommas (r.read_by ++ ',' :: agent))
      markLoop agent ms' rs

/-- `"[STATUS] {sender}: {message}"`. -/
def fmtRow (m : Message) : Str := "[STATUS] ".data ++ m.sender ++ ": ".data ++ m.message

/-- The `send` tool: insert a row (sender defaults to `"unknown"` when
`agent_id` is absent, message text to `""`), advancing the wall clock
by `δ`. -/
def sendTool (s : ServerState) (δ : Nat) (rid : Option Int) (a : ToolArgs) :
    ServerState × Response :=
  let sender := a.agent_id.getD unknownStr
  let mtext := a.message.getD []
  let t := s.clock + δ
  ({ messages := s.messages ++
       [{ id := s.nextId, sender := sender, message := mtext, timestamp := t, read_by := [] }],
     nextId := s.nextId + 1, clock := t },
   { jsonrpc := "2.0".data, id := rid,
     result := some (.textR ("✅ Message sent: ".data ++ mtext)), error := none })

/-- The `get_messages` tool: select unread rows, mark them read, and
return the newline-joined formatted rows (empty text when none). -/
def getTool (s : ServerState) (rid : Option Int) (a : ToolArgs) :
    ServerState × Response :=
  let agent := a.agent_id.getD unknownStr
  let rows := selectUnread agent s.messages
  let content := if rows.isEmpty then [] else joinNL (rows.map fmtRow)
  ({ s with messages := markLoop agent s.messages rows },
   { jsonrpc := "2.0".data, id := rid, result := some (.textR content), error := none })

/-- The fall-through response of `handle_mcp_request`:
`{"code": -32601, "message": f"Method not found: {method}"}`. -/
def methodNotFound (req : Request) : Response :=
  { jsonrpc := "2.0".data, id := req.id, result := none,
    error := some { code := -32601, message := "Method not found: ".data ++ req.method } }

/-- The dispatcher `handle_mcp_request`, branch for branch. -/
def handle_mcp_request (s : ServerState) (δ : Nat) (req : Request) :
    ServerState × Response :=
  if req.method == "initialize".data then
    (s, { jsonrpc := "2.0".data, id := req.id, result := some .initR, error := none })
  else if req.method == "tools/list".data then
    (s, { jsonrpc := "2.0".data, id := req.id, result := some .toolsR, error := none })
  else if req.method == "tools/call".data then
    if req.name == "send".data then
      sendTool s δ req.id req.args
    else if req.name == "get_messages".data then
      getTool s req.id req.args
    else
      (s, methodNotFound req)
  else
    (s, methodNotFound req)

/-- One stdin line as `main` sees it: text that fails `json.loads`
(`JSONDecodeError` branch), valid JSON that is not an object (so
`request.get` raises `AttributeError`, landing in the generic
`except Exception` branch), or a decoded request object. -/
inductive InputLine where
  | notJson
  | jsonNotObject
  | request (req : Request)

/-- One iteration of `main`'s read-dispatch-respond loop. -/
def processLine (s : ServerState) (δ : Nat) : InputLine → ServerState × Response
  | .notJson =>
      (s, { jsonrpc := "2.0".data, id := none, result := none,
            error := some { code := -32700, message := "Parse error".data } })
  | .jsonNotObject =>
      (s, { jsonrpc := "2.0".data, id := none, result := none,
            error := some { code := -32603, message := "Internal error".data } })
  | .request req => handle_mcp_request s δ req

/-- The states the server can be in after any sequence of input lines. -/
inductive Reachable : ServerState → Prop
  | base : Reachable initialState
  | step (s : ServerState) (δ : Nat) (line : InputLine) :
      Reachable s → Reachable (processLine s δ line).1

/-! ### Lemmas about the string primitives -/

theorem nil_mem_suffixes (s : Str) : ([] : Str) ∈ suffixes s := by
  induction s with
  | nil => simp [suffixes]
  | cons c s ih => simp [suffixes, ih]

theorem mem_suffixes_self (s : Str) : s ∈ suffixes s := by
  cases s <;> simp [suffixes]

theorem like_pct (s : Str) : like ['%'] s = true := by
  simp only [like, reduceIte, List.any_eq_true]
  exact ⟨[], nil_mem_suffixes s, rfl⟩

theorem like_pct_head {q s : Str} (h : like q s = true) : like ('%' :: q) s = true := by
  simp only [like, reduceIte, List.any_eq_true]
  exact ⟨s, mem_suffixes_self s, h⟩

theorem like_pct_cons {q s : Str} (c : Char) (h : like ('%' :: q) s = true) :
    like ('%' :: q) (c :: s) = true := by
  simp only [like, reduceIte, List.any_eq_true] at h ⊢
  obtain ⟨t, ht, hq⟩ := h
  exact ⟨t, by simp [suffixes, ht], hq⟩

theorem like_pct_skip {q s : Str} (c : Char) (h : like q s = true) :
    like ('%' :: q) (c :: s) = true :=
  like_pct_cons c (like_pct_head h)

theorem startsWith_like {p t : Str} (h : startsWith p t = true) :
    like (p ++ ['%']) t = true := by
  induction p generalizing t with
  | nil => simpa using like_pct t
  | cons a ps ih =>
    cases t with
    | nil => simp [startsWith] at h
    | cons c s =>
      simp only [startsWith, Bool.and_eq_true, beq_iff_eq] at h
      obtain ⟨rfl, hrest⟩ := h
      by_cases hpc : a = '%'
      · subst hpc
        exact like_pct_skip _ (ih hrest)
      · by_cases hu : a = '_'
        · subst hu
          simp [like, ih hrest]
        · simp [like, hpc, hu, ih hrest]

theorem contains_like {n t : Str} (h : containsSub n t = true) :
    like ('%' :: n ++ ['%']) t = true := by
  induction t with
  | nil =>
    cases n with
    | nil => exact like_pct_head (like_pct [])
    | cons a ns => simp [containsSub, startsWith] at h
  | cons c s ih =>
    simp only [containsSub, Bool.or_eq_true] at h
    rcases h with h | h
    · exact like_pct_head (startsWith_like h)
    · exact like_pct_cons c (ih h)

theorem startsWith_refl (l : Str) : startsWith l l = true := by
  induction l with
  | nil => rfl
  | cons a l ih => simp [startsWith, ih]

theorem contains_append_right (u A : Str) : containsSub A (u ++ A) = true := by
  induction u with
  | nil =>
    cases A with
    | nil => rfl
    | cons a ns => simp [containsSub, startsWith_refl]
  | cons c u ih => simp [containsSub, ih]

theorem contains_nil_needle (l : Str) : containsSub [] l = true := by
  cases l <;> simp [containsSub, startsWith]

theorem contains_nil_haystack {A : Str} (hA : A ≠ []) : containsSub A [] = false := by
  cases A with
  | nil => exact absurd rfl hA
  | cons a ns => rfl

theorem not_contains_of_not_like {A rb : Str} (h : like (pat A) rb = false) :
    containsSub A rb = false := by
  cases hc : containsSub A rb with
  | false => rfl
  | true =>
    have := contains_like hc
    rw [show ('%' :: A ++ ['%']) = pat A from rfl, h] at this
    cases this

theorem dropWhile_eq_self_of_head {p : Char → Bool} {c : Char} (l : Str)
    (h : p c = false) : (c :: l).dropWhile p = c :: l := by
  simp [List.dropWhile, h]

theorem dropWhile_append_keep {p : Char → Bool} {z : Str} (y : Str)
    (hz : z.dropWhile p = z) : (y ++ z).dropWhile p = y.dropWhile p ++ z := by
  induction y with
  | nil => simpa using hz
  | cons a y ih =>
    by_cases hpa : p a = true
    · simp [List.dropWhile, hpa, ih]
    · simp [List.dropWhile, hpa]

theorem dw_keeps_suffix {A : Str} (hA : A ≠ []) (hc : ',' ∉ A) :
    ∀ v : Str, ∃ v', ((v ++ A).dropWhile isComma) = v' ++ A := by
  intro v
  induction v with
  | nil =>
    cases A with
    | nil => exact absurd rfl hA
    | cons a ns =>
      refine ⟨[], ?_⟩
      have ha : isComma a = false := by
        simp only [isComma, beq_eq_false_iff_ne, ne_eq]
        intro h; exact hc (h ▸ List.mem_cons_self a ns)
      simpa using dropWhile_eq_self_of_head ns ha
  | cons c v ih =>
    by_cases hpc : isComma c = true
    · obtain ⟨v', hv'⟩ := ih
      exact ⟨v', by simp [List.dropWhile, hpc, hv']⟩
    · exact ⟨c :: v, by simp [List.dropWhile, hpc]⟩

theorem rev_head_not_comma {A : Str} (hA : A ≠ []) (hc : ',' ∉ A) :
    ∃ b B, A.reverse = b :: B ∧ isComma b = false := by
  cases hAr : A.reverse with
  | nil => rw [List.reverse_eq_nil_iff] at hAr; exact absurd hAr hA
  | cons b B =>
    refine ⟨b, B, rfl, ?_⟩
    have hb : b ∈ A := by
      rw [← List.mem_reverse, hAr]; exact List.mem_cons_self b B
    simp only [isComma, beq_eq_false_iff_ne, ne_eq]
    intro h; exact hc (h ▸ hb)

theorem strip_append_suffix {A : Str} (hA : A ≠ []) (hc : ',' ∉ A) (x : Str) :
    ∃ u, stripCommas (x ++ ',' :: A) = u ++ A := by
  have h1 : ∃ v', ((x ++ ',' :: A).dropWhile isComma) = v' ++ A := by
    have := dw_keeps_suffix hA hc (x ++ [','])
    simpa [List.append_assoc] using this
  obtain ⟨v', hv⟩ := h1
  obtain ⟨b, B, hrev, hb⟩ := rev_head_not_comma hA hc
  refine ⟨v', ?_⟩
  unfold stripCommas
  rw [hv, List.reverse_append, hrev, List.cons_append,
    dropWhile_eq_self_of_head _ hb, ← List.cons_append, ← hrev,
    ← List.reverse_append, List.reverse_reverse]

theorem mark_keeps_agent {A : Str} (hA : A ≠ []) (hc : ',' ∉ A) (x : Str) :
    containsSub A (stripCommas (x ++ ',' :: A)) = true ∧
      stripCommas (x ++ ',' :: A) ≠ [] := by
  obtain ⟨u, hu⟩ := strip_append_suffix hA hc x
  rw [hu]
  exact ⟨contains_append_right u A, by simp [hA]⟩

/-! ### The read-by markers the code produces carry no boundary commas -/

/-- A string with no leading and no trailing comma — the shape of every
read-by marker the code ever stores (`''` or an output of `strip(',')`). -/
def rbClean (l : Str) : Prop := l.head? ≠ some ',' ∧ l.reverse.head? ≠ some ','

theorem rbClean_nil : rbClean ([] : Str) := by simp [rbClean]

theorem head?_dropWhile {p : Char → Bool} {c : Char} :
    ∀ {l : Str}, (l.dropWhile p).head? = some c → p c = false := by
  intro l
  induction l with
  | nil => intro h; simp [List.dropWhile] at h
  | cons a l ih =>
    intro h
    by_cases hpa : p a = true
    · simp only [List.dropWhile, hpa] at h
      exact ih h
    · simp [List.dropWhile, hpa] at h
      exact h ▸ Bool.eq_false_iff.mpr hpa

theorem stripCommas_clean (l : Str) : rbClean (stripCommas l) := by
  constructor
  · cases hwr : ((l.dropWhile isComma).reverse.dropWhile isComma).reverse with
    | nil => simp [stripCommas, hwr]
    | cons c t =>
      obtain ⟨q, hq⟩ :=
        (List.dropWhile_suffix (l := (l.dropWhile isComma).reverse) isComma)
      have hd2 : l.dropWhile isComma =
          ((l.dropWhile isComma).reverse.dropWhile isComma).reverse ++ q.reverse := by
        rw [← List.reverse_append, hq, List.reverse_reverse]
      rw [hwr] at hd2
      have hcd : (l.dropWhile isComma).head? = some c := by rw [hd2]; rfl
      have hc := head?_dropWhile hcd
      simp only [stripCommas, hwr, List.head?, ne_eq, Option.some.injEq]
      intro h
      rw [h] at hc
      simp [isComma] at hc
  · simp only [stripCommas, List.reverse_reverse, ne_eq]
    intro h
    have := head?_dropWhile h
    simp [isComma] at this

/-! ### splitComma: comma-joined set semantics -/

theorem splitComma_ne_nil (l : Str) : splitComma l ≠ [] := by
  induction l with
  | nil => simp [splitComma]
  | cons c cs ih =>
    by_cases h : isComma c = true
    · simp [splitComma, h]
    · simp only [splitComma, h, Bool.false_eq_true, if_false]
      cases splitComma cs <;> simp [consHead]

theorem consHead_append (c : Char) {l : List Str} (h : l ≠ []) (m : List Str) :
    consHead c (l ++ m) = consHead c l ++ m := by
  cases l with
  | nil => exact absurd rfl h
  | cons t ts => rfl

theorem splitComma_append (x y : Str) :
    splitComma (x ++ ',' :: y) = splitComma x ++ splitComma y := by
  induction x with
  | nil => simp [splitComma, isComma]
  | cons c x ih =>
    by_cases h : isComma c = true
    · simp [splitComma, h, ih]
    · simp only [List.cons_append, splitComma, h, Bool.false_eq_true, if_false,
        List.append_eq]
      rw [ih]
      exact consHead_append c (splitComma_ne_nil x) _

/-- The central preservation fact for the read-by marker: when a clean
marker `x` gets `,agent` appended and the result is comma-stripped, every
non-empty comma-separated chunk of `x` is still a chunk of the result. -/
theorem tok_strip_append {x : Str} (hx : rbClean x) (A : Str) :
    ∀ tok ∈ splitComma x, tok ≠ [] →
      tok ∈ splitComma (stripCommas (x ++ ',' :: A)) := by
  cases x with
  | nil =>
    intro tok h hne
    simp [splitComma] at h
    exact absurd h hne
  | cons c x' =>
    have hc : isComma c = false := by
      simp only [isComma, beq_eq_false_iff_ne, ne_eq]
      intro h
      exact hx.1 (by simp [h])
    obtain ⟨b, xr, hbr⟩ : ∃ b xr, (c :: x').reverse = b :: xr := by
      cases hh : (c :: x').reverse with
      | nil => rw [List.reverse_eq_nil_iff] at hh; cases hh
      | cons b xr => exact ⟨b, xr, rfl⟩
    have hb : isComma b = false := by
      simp only [isComma, beq_eq_false_iff_ne, ne_eq]
      intro h
      exact hx.2 (by rw [hbr, h]; rfl)
    have h1 : ((c :: x') ++ ',' :: A).dropWhile isComma = (c :: x') ++ ',' :: A :=
      dropWhile_eq_self_of_head _ hc
    have h2 : ((',' :: A).reverse ++ (c :: x').reverse).dropWhile isComma
        = ((',' :: A).reverse.dropWhile isComma) ++ (c :: x').reverse := by
      apply dropWhile_append_keep
      rw [hbr]
      exact dropWhile_eq_self_of_head _ hb
    have hstrip : stripCommas ((c :: x') ++ ',' :: A)
        = (c :: x') ++ ((',' :: A).reverse.dropWhile isComma).reverse := by
      unfold stripCommas
      rw [h1, List.reverse_append, h2, List.reverse_append, List.reverse_reverse]
    obtain ⟨q, hq⟩ := (List.dropWhile_suffix (l := (',' :: A).reverse) isComma)
    have hpre : ',' :: A = ((',' :: A).reverse.dropWhile isComma).reverse ++ q.reverse := by
      rw [← List.reverse_append, hq, List.reverse_reverse]
    intro tok htok hne
    rw [hstrip]
    cases hwr : ((',' :: A).reverse.dropWhile isComma).reverse with
    | nil => simpa using htok
    | cons d t =>
      rw [hwr] at hpre
      have hd : d = ',' := by
        rw [List.cons_append] at hpre
        exact (List.cons.injEq _ _ _ _ ▸ hpre).1.symm
      rw [hd, splitComma_append]
      exact List.mem_append_left _ htok

/-! ### The stable sort modelling ORDER BY timestamp ASC -/

theorem mem_insertTS {x m : Message} : ∀ {l}, x ∈ insertTS m l ↔ x = m ∨ x ∈ l := by
  intro l
  induction l with
  | nil => simp [insertTS]
  | cons a l ih =>
    by_cases h : m.timestamp ≤ a.timestamp
    · simp [insertTS, h]
    · simp only [insertTS, h, if_false, List.mem_cons, ih]
      tauto

theorem mem_sortTS {x : Message} : ∀ {l}, x ∈ sortTS l ↔ x ∈ l := by
  intro l
  induction l with
  | nil => simp [sortTS]
  | cons m l ih => simp [sortTS, mem_insertTS, ih]

theorem insertTS_perm (m : Message) : ∀ l, List.Perm (insertTS m l) (m :: l) := by
  intro l
  induction l with
  | nil => exact List.Perm.refl _
  | cons a l ih =>
    by_cases h : m.timestamp ≤ a.timestamp
    · simp [insertTS, h]
    · simp only [insertTS, h, if_false]
      exact (List.Perm.cons a ih).trans (List.Perm.swap m a l)

theorem sortTS_perm : ∀ l, List.Perm (sortTS l) l := by
  intro l
  induction l with
  | nil => exact List.Perm.refl _
  | cons m l ih => exact (insertTS_perm m (sortTS l)).trans (List.Perm.cons m ih)

theorem insertTS_of_le {m : Message} {l : List Message}
    (h : ∀ x ∈ l, m.timestamp ≤ x.timestamp) : insertTS m l = m :: l := by
  cases l with
  | nil => rfl
  | cons a l => simp [insertTS, h a (List.mem_cons_self a l)]

theorem sortTS_of_sorted :
    ∀ {l}, List.Pairwise (fun a b => a.timestamp ≤ b.timestamp) l → sortTS l = l := by
  intro l
  induction l with
  | nil => intro _; rfl
  | cons m l ih =>
    intro hp
    obtain ⟨hh, ht⟩ := List.pairwise_cons.mp hp
    simp [sortTS, ih ht, insertTS_of_le hh]

theorem pairwise_id_inj :
    ∀ {l : List Message}, List.Pairwise (fun a b => a.id < b.id) l →
      ∀ {m r : Message}, m ∈ l → r ∈ l → m.id = r.id → m = r := by
  intro l hp
  induction l with
  | nil => intro m r hm; simp at hm
  | cons a l ih =>
    obtain ⟨hh, ht⟩ := List.pairwise_cons.mp hp
    intro m r hm hr hid
    rcases List.mem_cons.mp hm with h1 | h1 <;> rcases List.mem_cons.mp hr with h2 | h2
    · rw [h1, h2]
    · subst h1; exact absurd hid (Nat.ne_of_lt (hh r h2))
    · subst h2; exact absurd hid.symm (Nat.ne_of_lt (hh m h1))
    · exact ih ht h1 h2 hid

/-! ### Forall₂ helpers -/

theorem forall₂_map_self {α : Type} {R : α → α → Prop} (f : α → α) :
    ∀ l : List α, (∀ x ∈ l, R x (f x)) → List.Forall₂ R l (l.map f) := by
  intro l
  induction l with
  | nil => intro _; exact List.Forall₂.nil
  | cons a l ih =>
    intro h
    exact List.Forall₂.cons (h a (List.mem_cons_self a l))
      (ih fun x hx => h x (List.mem_cons_of_mem a hx))

theorem forall₂_trans_of {α : Type} {R : α → α → Prop}
    (ht : ∀ a b c, R a b → R b c → R a c) :
    ∀ {l₁ l₂ l₃ : List α}, List.Forall₂ R l₁ l₂ → List.Forall₂ R l₂ l₃ →
      List.Forall₂ R l₁ l₃ := by
  intro l₁ l₂ l₃ h12
  induction h12 generalizing l₃ with
  | nil => intro h23; cases h23; exact List.Forall₂.nil
  | cons hab h ih =>
    intro h23
    cases h23 with
    | cons hbc h' => exact List.Forall₂.cons (ht _ _ _ hab hbc) (ih h')

theorem forall₂_refl_of {α : Type} {R : α → α → Prop} (h : ∀ a, R a a) (l : List α) :
    List.Forall₂ R l l :=
  List.forall₂_same.mpr fun x _ => h x

theorem forall₂_mem_right {α β : Type} {R : α → β → Prop} :
    ∀ {l : List α} {l' : List β}, List.Forall₂ R l l' → ∀ {b}, b ∈ l' → ∃ a ∈ l, R a b := by
  intro l l' h
  induction h with
  | nil => intro b hb; simp at hb
  | cons hab h ih =>
    intro b hb
    rcases List.mem_cons.mp hb with rfl | hb
    · exact ⟨_, List.mem_cons_self _ _, hab⟩
    · obtain ⟨a, ha, hR⟩ := ih hb
      exact ⟨a, List.mem_cons_of_mem _ ha, hR⟩

theorem forall₂_pairwise {α : Type} {E P : α → α → Prop}
    (htr : ∀ a a' b b', E a a' → E b b' → P a b → P a' b') :
    ∀ {l l' : List α}, List.Forall₂ E l l' → List.Pairwise P l → List.Pairwise P l' := by
  intro l l' h
  induction h with
  | nil => intro _; exact List.Pairwise.nil
  | cons hab h ih =>
    intro hp
    obtain ⟨hh, ht⟩ := List.pairwise_cons.mp hp
    refine List.Pairwise.cons ?_ (ih ht)
    intro b' hb'
    obtain ⟨b, hb, hEb⟩ := forall₂_mem_right h hb'
    exact htr _ _ _ _ hab hEb (hh b hb)

/-! ### The mark-as-read loop -/

/-- What every operation preserves about a row: the immutable columns are
unchanged, and every non-empty chunk of the comma-joined read-by marker is
still present afterwards (the read-by set only ever gains identifiers). -/
def MPres (m m' : Message) : Prop :=
  m'.id = m.id ∧ m'.sender = m.sender ∧ m'.message = m.message ∧
    m'.timestamp = m.timestamp ∧
    ∀ tok ∈ splitComma m.read_by, tok ≠ [] → tok ∈ splitComma m'.read_by

theorem mPres_refl (m : Message) : MPres m m :=
  ⟨rfl, rfl, rfl, rfl, fun _ h _ => h⟩

theorem mPres_trans {a b c : Message} (h1 : MPres a b) (h2 : MPres b c) : MPres a c := by
  obtain ⟨i1, s1, m1, t1, r1⟩ := h1
  obtain ⟨i2, s2, m2, t2, r2⟩ := h2
  exact ⟨i2.trans i1, s2.trans s1, m2.trans m1, t2.trans t1,
    fun tok h hne => r2 tok (r1 tok h hne) hne⟩

theorem mem_updateById {ms : List Message} {i : Nat} {rb : Str} {m' : Message}
    (h : m' ∈ updateById ms i rb) :
    ∃ m ∈ ms, m' = if m.id == i then { m with read_by := rb } else m := by
  obtain ⟨m, hm, he⟩ := List.mem_map.mp h
  exact ⟨m, hm, he.symm⟩

theorem mem_markLoop {A : Str} :
    ∀ (rows ms : List Message) {m'}, m' ∈ markLoop A ms rows →
      m' ∈ ms ∨ ∃ m ∈ ms, ∃ r ∈ rows, containsSub A r.read_by = false ∧
        m' = { m with read_by := stripCommas (r.read_by ++ ',' :: A) } := by
  intro rows
  induction rows with
  | nil => intro ms m' h; exact Or.inl h
  | cons r rs ih =>
    intro ms m' h
    rw [markLoop] at h
    rcases ih _ h with hin | ⟨m, hm, r', hr', hcr', he⟩
    · by_cases hg : containsSub A r.read_by = true
      · rw [if_pos hg] at hin
        exact Or.inl hin
      · rw [if_neg hg] at hin
        obtain ⟨m, hm, he⟩ := mem_updateById hin
        by_cases hb : (m.id == r.id) = true
        · rw [if_pos hb] at he
          exact Or.inr ⟨m, hm, r, List.mem_cons_self r rs,
            Bool.eq_false_iff.mpr hg, he⟩
        · rw [if_neg hb] at he
          exact Or.inl (he ▸ hm)
    · by_cases hg : containsSub A r.read_by = true
      · rw [if_pos hg] at hm
        exact Or.inr ⟨m, hm, r', List.mem_cons_of_mem r hr', hcr', he⟩
      · rw [if_neg hg] at hm
        obtain ⟨m₀, hm₀, he₀⟩ := mem_updateById hm
        by_cases hb : (m₀.id == r.id) = true
        · rw [if_pos hb] at he₀
          refine Or.inr ⟨m₀, hm₀, r', List.mem_cons_of_mem r hr', hcr', ?_⟩
          rw [he, he₀]
        · rw [if_neg hb] at he₀
          exact Or.inr ⟨m₀, hm₀, r', List.mem_cons_of_mem r hr', hcr', he₀ ▸ he⟩

theorem markLoop_keep_suffix {A : Str} (hA : A ≠ []) (hc : ',' ∉ A) (i : Nat) :
    ∀ (rows ms : List Message),
      (∀ m ∈ ms, m.id = i → ∃ u, m.read_by = u ++ A) →
      ∀ m' ∈ markLoop A ms rows, m'.id = i → ∃ u, m'.read_by = u ++ A := by
  intro rows
  induction rows with
  | nil => intro ms hms m' hm' hid; exact hms m' hm' hid
  | cons r rs ih =>
    intro ms hms m' hm' hid
    rw [markLoop] at hm'
    refine ih _ ?_ m' hm' hid
    intro m hm hmi
    by_cases hg : containsSub A r.read_by = true
    · rw [if_pos hg] at hm
      exact hms m hm hmi
    · rw [if_neg hg] at hm
      obtain ⟨m₀, hm₀, he⟩ := mem_updateById hm
      by_cases hb : (m₀.id == r.id) = true
      · rw [if_pos hb] at he
        exact ⟨_, by rw [he]; exact (strip_append_suffix hA hc _).choose_spec⟩
      · rw [if_neg hb] at he
        rw [he]
        exact hms m₀ hm₀ (he ▸ hmi)

theorem markLoop_marked_suffix {A : Str} (hA : A ≠ []) (hc : ',' ∉ A) :
    ∀ (rows ms : List Message) {m' r : Message}, m' ∈ markLoop A ms rows →
      r ∈ rows → r.id = m'.id → containsSub A r.read_by = false →
      ∃ u, m'.read_by = u ++ A := by
  intro rows
  induction rows with
  | nil => intro ms m' r _ hr; simp at hr
  | cons r₀ rs ih =>
    intro ms m' r hm' hr hid hcr
    rw [markLoop] at hm'
    rcases List.mem_cons.mp hr with rfl | hrs
    · rw [if_neg (Bool.eq_false_iff.mp hcr)] at hm'
      refine markLoop_keep_suffix hA hc r.id rs _ ?_ m' hm' hid.symm
      intro m hm hmi
      obtain ⟨m₀, hm₀, he⟩ := mem_updateById hm
      by_cases hb : (m₀.id == r.id) = true
      · rw [if_pos hb] at he
        exact ⟨_, by rw [he]; exact (strip_append_suffix hA hc _).choose_spec⟩
      · rw [if_neg hb] at he
        exact absurd (he ▸ hmi) (by simpa using hb)
    · exact ih _ hm' hrs hid hcr

theorem markLoop_nil_agent : ∀ (rows ms : List Message), markLoop [] ms rows = ms := by
  intro rows
  induction rows with
  | nil => intro ms; rfl
  | cons r rs ih =>
    intro ms
    rw [markLoop, if_pos (contains_nil_needle _), ih]

theorem markLoop_forall₂ {A : Str} :
    ∀ (rows ms : List Message),
      (∀ r ∈ rows, rbClean r.read_by) →
      List.Pairwise (fun a b => a.id ≠ b.id) rows →
      (∀ r ∈ rows, ∀ m ∈ ms, m.id = r.id → m.read_by = r.read_by) →
      List.Forall₂ MPres ms (markLoop A ms rows) := by
  intro rows
  induction rows with
  | nil => intro ms _ _ _; exact forall₂_refl_of mPres_refl ms
  | cons r rs ih =>
    intro ms hclean hpw hsnap
    rw [markLoop]
    by_cases hg : containsSub A r.read_by = true
    · rw [if_pos hg]
      exact ih ms (fun r' h => hclean r' (List.mem_cons_of_mem r h))
        (List.pairwise_cons.mp hpw).2
        (fun r' h => hsnap r' (List.mem_cons_of_mem r h))
    · rw [if_neg hg]
      have step : List.Forall₂ MPres ms
          (updateById ms r.id (stripCommas (r.read_by ++ ',' :: A))) := by
        apply forall₂_map_self
        intro m hm
        by_cases hb : (m.id == r.id) = true
        · rw [if_pos hb]
          refine ⟨rfl, rfl, rfl, rfl, ?_⟩
          have hmr : m.read_by = r.read_by :=
            hsnap r (List.mem_cons_self r rs) m hm (beq_iff_eq.mp hb)
          rw [hmr]
          exact tok_strip_append (hclean r (List.mem_cons_self r rs)) A
        · rw [if_neg hb]
          exact mPres_refl m
      refine @forall₂_trans_of Message MPres (fun _ _ _ h1 h2 => mPres_trans h1 h2) _ _ _ step (ih _ ?_ ?_ ?_)
      · exact fun r' h => hclean r' (List.mem_cons_of_mem r h)
      · exact (List.pairwise_cons.mp hpw).2
      · intro r' hr' m hm hmi
        obtain ⟨m₀, hm₀, he⟩ := mem_updateById hm
        by_cases hb : (m₀.id == r.id) = true
        · exfalso
          have h1 : m.id = m₀.id := by rw [he, if_pos hb]
          have hne : r.id ≠ r'.id := (List.pairwise_cons.mp hpw).1 r' hr'
          exact hne (by rw [← beq_iff_eq.mp hb, ← h1, hmi])
        · rw [if_neg hb] at he
          exact he ▸ hsnap r' (List.mem_cons_of_mem r hr') m₀ hm₀ (he ▸ hmi)

/-! ### The reachable-state invariant -/

/-- Well-formedness of a database state: ids are strictly increasing in
scan order and below the autoincrement counter, timestamps are
non-decreasing in scan order and bounded by the clock, and every read-by
marker is free of boundary commas. -/
def WF (s : ServerState) : Prop :=
  List.Pairwise (fun a b => a.id < b.id) s.messages ∧
  (∀ m ∈ s.messages, m.id < s.nextId) ∧
  List.Pairwise (fun a b => a.timestamp ≤ b.timestamp) s.messages ∧
  (∀ m ∈ s.messages, m.timestamp ≤ s.clock) ∧
  (∀ m ∈ s.messages, rbClean m.read_by)

theorem wf_initial : WF initialState := by
  refine ⟨List.Pairwise.nil, ?_, List.Pairwise.nil, ?_, ?_⟩ <;> intro m hm <;> simp [initialState] at hm

theorem wf_sendTool {s : ServerState} (h : WF s) (δ : Nat) (rid : Option Int)
    (a : ToolArgs) : WF (sendTool s δ rid a).1 := by
  obtain ⟨h1, h2, h3, h4, h5⟩ := h
  simp only [sendTool]
  refine ⟨?_, ?_, ?_, ?_, ?_⟩
  · rw [List.pairwise_append]
    refine ⟨h1, by simp, ?_⟩
    intro m hm b hb
    simp only [List.mem_singleton] at hb
    rw [hb]
    exact h2 m hm
  · intro m hm
    rcases List.mem_append.mp hm with hm | hm
    · exact Nat.lt_succ_of_lt (h2 m hm)
    · simp only [List.mem_singleton] at hm
      rw [hm]
      exact Nat.lt_succ_self _
  · rw [List.pairwise_append]
    refine ⟨h3, by simp, ?_⟩
    intro m hm b hb
    simp only [List.mem_singleton] at hb
    rw [hb]
    exact Nat.le_add_right_of_le (h4 m hm)
  · intro m hm
    rcases List.mem_append.mp hm with hm | hm
    · exact Nat.le_add_right_of_le (h4 m hm)
    · simp only [List.mem_singleton] at hm
      rw [hm]
  · intro m hm
    rcases List.mem_append.mp hm with hm | hm
    · exact h5 m hm
    · simp only [List.mem_singleton] at hm
      rw [hm]
      exact rbClean_nil

theorem rows_mem {agent : Str} {ms : List Message} {r : Message}
    (h : r ∈ selectUnread agent ms) : r ∈ ms :=
  (List.mem_filter.mp (mem_sortTS.mp h)).1

theorem rows_selCond {agent : Str} {ms : List Message} {r : Message}
    (h : r ∈ selectUnread agent ms) : selCond agent r = true :=
  (List.mem_filter.mp (mem_sortTS.mp h)).2

theorem mem_rows_of_selCond {agent : Str} {ms : List Message} {r : Message}
    (hm : r ∈ ms) (hc : selCond agent r = true) : r ∈ selectUnread agent ms :=
  mem_sortTS.mpr (List.mem_filter.mpr ⟨hm, hc⟩)

theorem rows_pairwise_ne {agent : Str} {ms : List Message}
    (h1 : List.Pairwise (fun a b => a.id < b.id) ms) :
    List.Pairwise (fun a b => a.id ≠ b.id) (selectUnread agent ms) := by
  have hf : List.Pairwise (fun a b => a.id ≠ b.id) (ms.filter (selCond agent)) :=
    ((h1.sublist (List.filter_sublist ms)).imp fun h => Nat.ne_of_lt h)
  exact ((sortTS_perm (ms.filter (selCond agent))).pairwise_iff
    (fun h => Ne.symm h)).mpr hf

theorem rows_snapshot {agent : Str} {ms : List Message}
    (h1 : List.Pairwise (fun a b => a.id < b.id) ms) :
    ∀ r ∈ selectUnread agent ms, ∀ m ∈ ms, m.id = r.id → m.read_by = r.read_by := by
  intro r hr m hm hid
  rw [pairwise_id_inj h1 hm (rows_mem hr) hid]

theorem getTool_forall₂ {s : ServerState} (h : WF s) (rid : Option Int)
    (a : ToolArgs) : List.Forall₂ MPres s.messages (getTool s rid a).1.messages := by
  obtain ⟨h1, _, _, _, h5⟩ := h
  exact markLoop_forall₂ _ _
    (fun r hr => h5 r (rows_mem hr))
    (rows_pairwise_ne h1)
    (rows_snapshot h1)

theorem wf_getTool {s : ServerState} (h : WF s) (rid : Option Int)
    (a : ToolArgs) : WF (getTool s rid a).1 := by
  have hF := getTool_forall₂ h rid a
  obtain ⟨h1, h2, h3, h4, h5⟩ := h
  refine ⟨?_, ?_, ?_, ?_, ?_⟩
  · exact forall₂_pairwise
      (fun a a' b b' ha hb hP => ha.1 ▸ hb.1 ▸ hP) hF h1
  · intro m' hm'
    obtain ⟨m, hm, hP⟩ := forall₂_mem_right hF hm'
    exact hP.1 ▸ h2 m hm
  · exact forall₂_pairwise
      (fun a a' b b' ha hb hP => ha.2.2.2.1 ▸ hb.2.2.2.1 ▸ hP) hF h3
  · intro m' hm'
    obtain ⟨m, hm, hP⟩ := forall₂_mem_right hF hm'
    exact hP.2.2.2.1 ▸ h4 m hm
  · intro m' hm'
    rcases mem_markLoop _ _ hm' with hin | ⟨m, _, r, _, _, he⟩
    · exact h5 m' hin
    · rw [he]
      exact stripCommas_clean _

theorem wf_handle {s : ServerState} (h : WF s) (δ : Nat) (req : Request) :
    WF (handle_mcp_request s δ req).1 := by
  unfold handle_mcp_request
  split_ifs <;> first
    | exact h
    | exact wf_sendTool h δ req.id req.args
    | exact wf_getTool h req.id req.args

theorem wf_processLine {s : ServerState} (h : WF s) (δ : Nat) (line : InputLine) :
    WF (processLine s δ line).1 := by
  cases line with
  | notJson => exact h
  | jsonNotObject => exact h
  | request req => exact wf_handle h δ req

theorem wf_reachable {s : ServerState} (h : Reachable s) : WF s := by
  induction h with
  | base => exact wf_initial
  | step s δ line _ ih => exact wf_processLine ih δ line

/-! ### The claims -/

/-- Claim C1 (code bug): the claim demands set-membership semantics for
the read-by marker with no substring false positives — agent `"12"` must
still receive a message whose read-by set is `{"112"}`.  The code's
`LIKE '%12%'` matches inside `"112"`, so after agent `"112"` reads the
message, a `get_messages("12")` call returns empty text even though
`"12"` is not a member of the read-by set. -/
theorem C1_substring_false_positive :
    (getTool (getTool (sendTool initialState 0 none
        ⟨some "A".data, some "hi".data⟩).1 none ⟨some "112".data, none⟩).1
      none ⟨some "12".data, none⟩).2.result = some (.textR []) ∧
    (getTool (sendTool initialState 0 none ⟨some "A".data, some "hi".data⟩).1
        none ⟨some "112".data, none⟩).1.messages.map
      (fun m => splitComma m.read_by) = [["112".data]] ∧
    "12".data ∉ ["112".data] := by decide

/-- Claim C2: in every reachable state, the rows returned by a
`get_messages` query are in strictly ascending id order, even when
messages share a timestamp (the stable `ORDER BY timestamp` sort of a
scan whose timestamps are non-decreasing keeps insertion order). -/
theorem C2_rows_ascending_id {s : ServerState} (h : Reachable s) (agent : Str) :
    List.Pairwise (fun a b => a.id < b.id) (selectUnread agent s.messages) := by
  obtain ⟨h1, _, h3, _, _⟩ := wf_reachable h
  unfold selectUnread
  rw [sortTS_of_sorted (h3.sublist (List.filter_sublist _))]
  exact h1.sublist (List.filter_sublist _)

/-- Witness for C2 at a concrete reachable state (one send, two equal
timestamps are exercised elsewhere; `δ = 0` keeps the clock at 0). -/
theorem C2_witness :
    Reachable (processLine initialState 0
      (.request ⟨none, "tools/call".data, "send".data,
        ⟨some "A".data, some "m1".data⟩⟩)).1 ∧
    List.Pairwise (fun a b => a.id < b.id)
      (selectUnread "B".data (processLine initialState 0
        (.request ⟨none, "tools/call".data, "send".data,
          ⟨some "A".data, some "m1".data⟩⟩)).1.messages) :=
  ⟨Reachable.step _ 0 _ Reachable.base,
   C2_rows_ascending_id (Reachable.step _ 0 _ Reachable.base) "B".data⟩

/-- Claim C3: a `get_messages` query never selects a message whose sender
is the querying agent (`sender != ?` in the WHERE clause), so no agent is
ever returned a message it authored. -/
theorem C3_never_own_messages (s : ServerState) (agent : Str) (m : Message)
    (hm : m ∈ selectUnread agent s.messages) : m.sender ≠ agent := by
  have hc := rows_selCond hm
  simp only [selCond, Bool.and_eq_true, bne_iff_ne, ne_eq] at hc
  exact hc.1

/-- Witness for C3 at a concrete state and row. -/
theorem C3_witness :
    (⟨1, "A".data, "hi".data, 0, []⟩ : Message) ∈
      selectUnread "B".data [⟨1, "A".data, "hi".data, 0, []⟩] ∧
    (⟨1, "A".data, "hi".data, 0, []⟩ : Message).sender ≠ "B".data :=
  ⟨by decide,
   C3_never_own_messages ⟨[⟨1, "A".data, "hi".data, 0, []⟩], 2, 0⟩ "B".data _
     (by decide)⟩

/-- Claim C4 counterexample: for the agent id `""` (an agent identifier,
and the log holds an unread message from another sender), two consecutive
`get_messages` calls with no intervening send both return non-empty text —
the claim says the second call must return empty text. -/
theorem C4_counterexample :
    (getTool (sendTool initialState 0 none ⟨some "b".data, some "hi".data⟩).1
      none ⟨some [], none⟩).2.result = some (.textR "[STATUS] b: hi".data) ∧
    (getTool (getTool (sendTool initialState 0 none
        ⟨some "b".data, some "hi".data⟩).1 none ⟨some [], none⟩).1
      none ⟨some [], none⟩).2.result = some (.textR "[STATUS] b: hi".data) ∧
    "[STATUS] b: hi".data ≠ ([] : Str) := by decide

/-- Claim C5 counterexample: a `send` whose arguments carry
`agent_id = ""` stores a message with an empty sender, refuting "no
stored message ever has an empty sender". -/
theorem C5_counterexample :
    (sendTool initialState 0 none ⟨some [], some "hi".data⟩).1.messages.map
      Message.sender = [[]] := by decide

/-- Claim C5 as amended: a message stored by `send` has sender
`"unknown"` exactly when `agent_id` is absent from the arguments;
when `agent_id` is present its value is stored verbatim (hence an
explicitly empty `agent_id` yields an empty sender). -/
theorem C5_amended_sender_fallback (s : ServerState) (δ : Nat) (rid : Option Int)
    (mo : Option Str) :
    ((sendTool s δ rid ⟨none, mo⟩).1.messages.map Message.sender =
      s.messages.map Message.sender ++ [unknownStr]) ∧
    ∀ v : Str, (sendTool s δ rid ⟨some v, mo⟩).1.messages.map Message.sender =
      s.messages.map Message.sender ++ [v] := by
  constructor
  · simp [sendTool]
  · intro v
    simp [sendTool]

/-- Claim C6: a request whose method is none of `initialize`,
`tools/list`, `tools/call` — or a `tools/call` whose tool name is neither
`send` nor `get_messages` — falls through to the default error response
with code `-32601`, and the state (hence the message log) is unchanged. -/
theorem C6_unknown_method (s : ServerState) (δ : Nat) (req : Request)
    (h1 : req.method ≠ "initialize".data)
    (h2 : req.method ≠ "tools/list".data)
    (h3 : req.method = "tools/call".data →
      req.name ≠ "send".data ∧ req.name ≠ "get_messages".data) :
    (handle_mcp_request s δ req).1 = s ∧
    (handle_mcp_request s δ req).2.error =
      some ⟨-32601, "Method not found: ".data ++ req.method⟩ := by
  unfold handle_mcp_request
  split_ifs with g1 g2 g3 g4 g5
  · exact absurd (beq_iff_eq.mp g1) h1
  · exact absurd (beq_iff_eq.mp g2) h2
  · exact absurd (beq_iff_eq.mp g4) (h3 (beq_iff_eq.mp g3)).1
  · exact absurd (beq_iff_eq.mp g5) (h3 (beq_iff_eq.mp g3)).2
  · exact ⟨rfl, rfl⟩
  · exact ⟨rfl, rfl⟩

/-- Witness for C6: the unknown method `"foo"` from the spec's concrete
scenario. -/
theorem C6_witness :
    "foo".data ≠ "initialize".data ∧
    ((handle_mcp_request initialState 0 ⟨none, "foo".data, [], ⟨none, none⟩⟩).1 =
        initialState ∧
      (handle_mcp_request initialState 0 ⟨none, "foo".data, [], ⟨none, none⟩⟩).2.error =
        some ⟨-32601, "Method not found: ".data ++ "foo".data⟩) :=
  ⟨by decide,
   C6_unknown_method initialState 0 _ (by decide) (by decide)
     (fun hh => absurd hh (by decide))⟩

/-- Claim C7 counterexample: an input line that is valid JSON but not an
object is not parseable as the request envelope, yet the dispatcher
answers it with internal error `-32603` (the `request.get` attribute
failure lands in the generic exception handler), not with parse error
`-32700` as the claim demands.  The log is unchanged either way. -/
theorem C7_counterexample :
    (processLine initialState 0 .jsonNotObject).2.error =
      some ⟨-32603, "Internal error".data⟩ ∧
    ((-32603 : Int) ≠ -32700) ∧
    (processLine initialState 0 .jsonNotObject).1 = initialState := by decide

/-- Claim C7 as amended: an input line that fails JSON decoding yields a
parse-error response with code `-32700` and a null id; a line that decodes
to JSON that is not an object yields an internal-error response with code
`-32603`, also with a null id; both leave the state unchanged. -/
theorem C7_amended_parse_errors (s : ServerState) (δ : Nat) :
    processLine s δ .notJson =
      (s, ⟨"2.0".data, none, none, some ⟨-32700, "Parse error".data⟩⟩) ∧
    processLine s δ .jsonNotObject =
      (s, ⟨"2.0".data, none, none, some ⟨-32603, "Internal error".data⟩⟩) :=
  ⟨rfl, rfl⟩

/-- Claim C8: every successful response of the dispatcher carries the
envelope version field `"2.0"` and echoes the id of the request it
answers. -/
theorem C8_success_envelope (s : ServerState) (δ : Nat) (req : Request)
    (h : (handle_mcp_request s δ req).2.error = none) :
    (handle_mcp_request s δ req).2.jsonrpc = "2.0".data ∧
    (handle_mcp_request s δ req).2.id = req.id := by
  unfold handle_mcp_request at h ⊢
  split_ifs at h ⊢ <;> first
    | exact ⟨rfl, rfl⟩
    | simp [methodNotFound] at h

/-- Witness for C8 on a concrete `initialize` request. -/
theorem C8_witness :
    (handle_mcp_request initialState 0
      ⟨some 7, "initialize".data, [], ⟨none, none⟩⟩).2.error = none ∧
    (handle_mcp_request initialState 0
      ⟨some 7, "initialize".data, [], ⟨none, none⟩⟩).2.jsonrpc = "2.0".data ∧
    (handle_mcp_request initialState 0
      ⟨some 7, "initialize".data, [], ⟨none, none⟩⟩).2.id = some 7 :=
  ⟨by decide, C8_success_envelope _ 0 _ (by decide)⟩

/-- Claim C9: calling `get_messages` with the empty agent id returns the
messages whose read-by marker is empty (and whose sender is non-empty),
but marks nothing as read — Python's `"" in read_by` is always true — so
the state is unchanged and an immediately repeated call returns the very
same result, breaking one-shot delivery for that identifier. -/
theorem C9_empty_agent_id (s : ServerState) (rid₁ rid₂ : Option Int) :
    (getTool s rid₁ ⟨some [], none⟩).1 = s ∧
    (∀ m ∈ s.messages, m.sender ≠ [] → m.read_by = [] →
      m ∈ selectUnread [] s.messages) ∧
    (getTool (getTool s rid₁ ⟨some [], none⟩).1 rid₂ ⟨some [], none⟩).2.result =
      (getTool s rid₂ ⟨some [], none⟩).2.result := by
  have hstate : (getTool s rid₁ ⟨some [], none⟩).1 = s := by
    simp [getTool, markLoop_nil_agent]
  refine ⟨hstate, ?_, ?_⟩
  · intro m hm hs hr
    apply mem_rows_of_selCond hm
    simp [selCond, hr, hs]
  · rw [hstate]

/-- Witness for C9 at a concrete one-message state. -/
theorem C9_witness :
    (getTool ⟨[⟨1, "b".data, "hi".data, 0, []⟩], 2, 0⟩ none ⟨some [], none⟩).1 =
      ⟨[⟨1, "b".data, "hi".data, 0, []⟩], 2, 0⟩ ∧
    (⟨1, "b".data, "hi".data, 0, []⟩ : Message) ∈
      selectUnread [] [⟨1, "b".data, "hi".data, 0, []⟩] :=
  ⟨(C9_empty_agent_id ⟨[⟨1, "b".data, "hi".data, 0, []⟩], 2, 0⟩ none none).1,
   (C9_empty_agent_id ⟨[⟨1, "b".data, "hi".data, 0, []⟩], 2, 0⟩ none none).2.1
     _ (by decide) (by decide) (by decide)⟩

theorem fmtRow_ne_nil (m : Message) : fmtRow m ≠ [] := by
  intro h
  exact List.noConfusion (show ('[' :: _ : Str) = [] from h)

theorem joinNL_ne_nil : ∀ {l : List Str}, l ≠ [] → (∀ x ∈ l, x ≠ []) →
    joinNL l ≠ [] := by
  intro l hl hx
  cases l with
  | nil => exact absurd rfl hl
  | cons x xs =>
    cases xs with
    | nil => simpa [joinNL] using hx x (by simp)
    | cons y ys => simp [joinNL]

/-- Claim C4 as amended: for a non-empty, comma-free agent identifier `A`
whose unread query currently selects at least one row, a `get_messages(A)`
call returns non-empty text, and an immediately following second call
with no intervening sends returns empty text (the first call marked every
selected row with `A`, and `A`'s occurrence makes both the `LIKE` filter
and the substring guard exclude the row thereafter). -/
theorem C4_amended_one_shot (s : ServerState) (A : Str) (rid₁ rid₂ : Option Int)
    (hA : A ≠ []) (hcm : ',' ∉ A)
    (hne : selectUnread A s.messages ≠ []) :
    (getTool s rid₁ ⟨some A, none⟩).2.result =
      some (.textR (joinNL ((selectUnread A s.messages).map fmtRow))) ∧
    joinNL ((selectUnread A s.messages).map fmtRow) ≠ [] ∧
    (getTool (getTool s rid₁ ⟨some A, none⟩).1 rid₂ ⟨some A, none⟩).2.result =
      some (.textR []) := by
  have hemp : (selectUnread A s.messages).isEmpty = false := by
    cases hll : selectUnread A s.messages with
    | nil => exact absurd hll hne
    | cons m l => rfl
  refine ⟨?_, ?_, ?_⟩
  · simp [getTool, hemp]
  · apply joinNL_ne_nil
    · intro h
      rw [List.map_eq_nil_iff] at h
      exact hne h
    · intro x hx
      obtain ⟨m, _, rfl⟩ := List.mem_map.mp hx
      exact fmtRow_ne_nil m
  · have hkey : List.filter (selCond A)
        (markLoop A s.messages (selectUnread A s.messages)) = [] := by
      rw [List.filter_eq_nil_iff]
      intro m' hm' hsc
      have hsc' := hsc
      simp only [selCond, Bool.and_eq_true, Bool.or_eq_true, Bool.not_eq_true',
        beq_iff_eq, bne_iff_ne, ne_eq] at hsc'
      obtain ⟨hsender, hor⟩ := hsc'
      have hsfx : ∃ u, m'.read_by = u ++ A := by
        rcases mem_markLoop _ _ hm' with hin | ⟨m, hmm, r, hr, hcr, he⟩
        · have hmem : m' ∈ selectUnread A s.messages := mem_rows_of_selCond hin hsc
          have hncr : containsSub A m'.read_by = false := by
            rcases hor with hl | hrb
            · exact not_contains_of_not_like hl
            · rw [hrb]
              exact contains_nil_haystack hA
          exact markLoop_marked_suffix hA hcm _ _ hm' hmem rfl hncr
        · exact ⟨_, by rw [he]; exact (strip_append_suffix hA hcm _).choose_spec⟩
      obtain ⟨u, hu⟩ := hsfx
      rcases hor with hl | hrb
      · rw [hu] at hl
        have hlike := contains_like (contains_append_right u A)
        rw [show ('%' :: A ++ ['%']) = pat A from rfl] at hlike
        rw [hlike] at hl
        cases hl
      · rw [hrb] at hu
        exact hA (List.append_eq_nil.mp hu.symm).2
    have hsel2 : selectUnread A (markLoop A s.messages (selectUnread A s.messages)) = [] := by
      show sortTS (List.filter (selCond A)
        (markLoop A s.messages (selectUnread A s.messages))) = []
      rw [hkey]
      rfl
    simp [getTool, hsel2]

/-- Witness for C4 (amended) at a concrete one-message state and agent
`"B"`. -/
theorem C4_witness :
    ("B".data ≠ ([] : Str)) ∧ (',' ∉ "B".data) ∧
    selectUnread "B".data [⟨1, "A".data, "hi".data, 0, []⟩] ≠ [] ∧
    ((getTool ⟨[⟨1, "A".data, "hi".data, 0, []⟩], 2, 0⟩ none
        ⟨some "B".data, none⟩).2.result =
      some (.textR (joinNL ((selectUnread "B".data
        [⟨1, "A".data, "hi".data, 0, []⟩]).map fmtRow))) ∧
    joinNL ((selectUnread "B".data [⟨1, "A".data, "hi".data, 0, []⟩]).map fmtRow) ≠ [] ∧
    (getTool (getTool ⟨[⟨1, "A".data, "hi".data, 0, []⟩], 2, 0⟩ none
        ⟨some "B".data, none⟩).1 none ⟨some "B".data, none⟩).2.result =
      some (.textR [])) :=
  ⟨by decide, by decide, by decide,
   C4_amended_one_shot ⟨[⟨1, "A".data, "hi".data, 0, []⟩], 2, 0⟩ "B".data none none
     (by decide) (by decide) (by decide)⟩

/-- Claim C10: every operation preserves the id, sender, content and
timestamp of every existing message (positionally — the old log is a
prefix of the new one up to the read-by column), and the read-by marker
only ever gains identifiers: every non-empty comma-separated chunk
present before the operation is still present after it. -/
theorem C10_preservation {s : ServerState} (h : Reachable s) (δ : Nat)
    (line : InputLine) :
    List.Forall₂ MPres s.messages
      ((processLine s δ line).1.messages.take s.messages.length) := by
  have hWF := wf_reachable h
  have base : List.Forall₂ MPres s.messages (s.messages.take s.messages.length) := by
    rw [List.take_length]
    exact forall₂_refl_of mPres_refl _
  cases line with
  | notJson => exact base
  | jsonNotObject => exact base
  | request req =>
    show List.Forall₂ MPres s.messages
      ((handle_mcp_request s δ req).1.messages.take s.messages.length)
    unfold handle_mcp_request
    split_ifs
    · exact base
    · exact base
    · simp only [sendTool]
      rw [List.take_left]
      exact forall₂_refl_of mPres_refl _
    · have hF := getTool_forall₂ hWF req.id req.args
      rw [hF.length_eq, List.take_length]
      exact hF
    · exact base
    · exact base

/-- Witness for C10: a concrete reachable one-message state and a
`get_messages` operation. -/
theorem C10_witness :
    Reachable (processLine initialState 0
      (.request ⟨none, "tools/call".data, "send".data,
        ⟨some "A".data, some "hi".data⟩⟩)).1 ∧
    List.Forall₂ MPres (processLine initialState 0
        (.request ⟨none, "tools/call".data, "send".data,
          ⟨some "A".data, some "hi".data⟩⟩)).1.messages
      ((processLine (processLine initialState 0
          (.request ⟨none, "tools/call".data, "send".data,
            ⟨some "A".data, some "hi".data⟩⟩)).1 0
        (.request ⟨none, "tools/call".data, "get_messages".data,
          ⟨some "B".data, none⟩⟩)).1.messages.take
        (processLine initialState 0
          (.request ⟨none, "tools/call".data, "send".data,
            ⟨some "A".data, some "hi".data⟩⟩)).1.messages.length) :=
  ⟨Reachable.step _ 0 _ Reachable.base,
   C10_preservation (Reachable.step _ 0 _ Reachable.base) 0 _⟩

end MCP
